import Mathlib

/-!
Shallow embedding of `src/pmlib/queues.py`: the single-element normal queue
and the single-element bypass queue, each split into a control unit (which
owns the one-bit `full` state) and a datapath unit (which owns the storage
register, and for the bypass variant a two-way mux).

One-bit signals are embedded as `Bool`; the opaque W-bit data value is
embedded as an arbitrary type `α`, so every theorem quantified over `α`
covers every width and every data value.
-/

namespace PymtlQueues

/-- Modelled from the spec: `pmlib.regs.RegEn`, instantiated at
`src/pmlib/queues.py` lines 28 and 169 but not itself present under `src/`.
Per spec section 4.2: an enabled register; on each clock edge, if the enable
is asserted it captures its input into storage, otherwise it retains its
current value. Its output is wired combinationally to the stored value, so
the register is fully described by this next-state function on the stored
value. -/
def regEnNext {α : Type} (en : Bool) (in_ reg : α) : α :=
  if en then in_ else reg

/-- Modelled from the spec: `pmlib.muxes.Mux2`, instantiated at
`src/pmlib/queues.py` line 176 but not itself present under `src/`.
Per spec section 4.5: a two-way selector; output is input 0 when the select
bit is 0 and input 1 when the select bit is 1. -/
def mux2 {α : Type} (sel : Bool) (in0 in1 : α) : α :=
  if sel then in1 else in0

/-- Combinational outputs of `SingleElementNormalQueueCtrl.comb`
(`src/pmtl/queues.py` has them as the OutPorts `wen`, `enq_rdy`, `deq_val`). -/
structure NormalCtrlOut where
  wen : Bool
  enq_rdy : Bool
  deq_val : Bool
deriving DecidableEq, Repr

/-- `SingleElementNormalQueueCtrl.comb` (src/pmlib/queues.py lines 59-75):
`wen = ~full & enq_val`, `enq_rdy = ~full`, `deq_val = full`. The block reads
only the `full` wire and the `enq_val` input; in particular it does not read
`deq_rdy`. -/
def normalComb (full enq_val : Bool) : NormalCtrlOut :=
  { wen := !full && enq_val
    enq_rdy := !full
    deq_val := full }

/-- `SingleElementNormalQueueCtrl.seq` (src/pmlib/queues.py lines 77-91):
the next value of the `full` wire, computed from pre-edge values. The block
reads `deq_val` and `enq_rdy`, which are driven combinationally by `comb`
from the pre-edge state, so they are recomputed here via `normalComb`. -/
def normalSeq (reset full enq_val deq_rdy : Bool) : Bool :=
  let o := normalComb full enq_val
  if reset then false
  else if deq_rdy && o.deq_val then false
  else if o.enq_rdy && enq_val then true
  else full

/-- `SingleElementNormalQueueDpath` (src/pmlib/queues.py lines 13-34):
`deq_bits` is wired directly to the storage register output. -/
def normalDeqBits {α : Type} (reg : α) : α := reg

/-- Combinational outputs of `SingleElementBypassQueueCtrl.comb`. -/
structure BypassCtrlOut where
  bypass_mux_sel : Bool
  wen : Bool
  enq_rdy : Bool
  deq_val : Bool
deriving DecidableEq, Repr

/-- `SingleElementBypassQueueCtrl.comb` (src/pmlib/queues.py lines 207-228):
`bypass_mux_sel = ~full`, `wen = ~full & enq_val`, `enq_rdy = ~full`,
`deq_val = full | (~full & enq_val)`. The block reads only the `full` wire
and the `enq_val` input; it does not read `deq_rdy`. -/
def bypassComb (full enq_val : Bool) : BypassCtrlOut :=
  { bypass_mux_sel := !full
    wen := !full && enq_val
    enq_rdy := !full
    deq_val := full || (!full && enq_val) }

/-- `SingleElementBypassQueueCtrl.seq` (src/pmlib/queues.py lines 230-250):
next value of the `full` wire, via the helper signals `do_deq`, `do_enq`,
`do_bypass` computed from pre-edge values. -/
def bypassSeq (reset full enq_val deq_rdy : Bool) : Bool :=
  let o := bypassComb full enq_val
  let do_deq := deq_rdy && o.deq_val
  let do_enq := o.enq_rdy && enq_val
  let do_bypass := !full && do_deq && do_enq
  if reset then false
  else if do_deq then false
  else if do_enq && !do_bypass then true
  else full

/-- `SingleElementBypassQueueDpath` (src/pmlib/queues.py lines 153-181):
`deq_bits` is the output of the bypass mux, with the stored value on mux
input 0 and the live `enq_bits` on mux input 1. -/
def bypassDeqBits {α : Type} (bypass_mux_sel : Bool) (enq_bits reg : α) : α :=
  mux2 bypass_mux_sel reg enq_bits

/-- Persistent state of a whole queue instance: the control `full` wire and
the datapath storage register (the only persisted state in the source). -/
structure QState (α : Type) where
  full : Bool
  reg : α
deriving DecidableEq, Repr

/-- Externally driven inputs of one clock cycle. -/
structure QIn (α : Type) where
  reset : Bool
  enq_val : Bool
  deq_rdy : Bool
  enq_bits : α
deriving DecidableEq, Repr

/-- One clock edge of `SingleElementNormalQueue`: combinational outputs are
evaluated from pre-edge state, then both registers commit atomically. -/
def normalStep {α : Type} (s : QState α) (i : QIn α) : QState α :=
  let o := normalComb s.full i.enq_val
  { full := normalSeq i.reset s.full i.enq_val i.deq_rdy
    reg := regEnNext o.wen i.enq_bits s.reg }

/-- One clock edge of `SingleElementBypassQueue`. -/
def bypassStep {α : Type} (s : QState α) (i : QIn α) : QState α :=
  let o := bypassComb s.full i.enq_val
  { full := bypassSeq i.reset s.full i.enq_val i.deq_rdy
    reg := regEnNext o.wen i.enq_bits s.reg }

/-- Run the normal queue over a whole input trace. -/
def normalRun {α : Type} (s : QState α) : List (QIn α) → QState α
  | [] => s
  | i :: is => normalRun (normalStep s i) is

/-- Run the bypass queue over a whole input trace. -/
def bypassRun {α : Type} (s : QState α) : List (QIn α) → QState α
  | [] => s
  | i :: is => bypassRun (bypassStep s i) is

/-- Abstraction of a queue state: the multiset of items resident, as an
`Option` (the `full` bit says whether the register holds a live item). -/
def absContents {α : Type} (s : QState α) : Option α :=
  if s.full then some s.reg else none

/-- Abstract one-slot queue semantics of the normal variant: a dequeue
drains a resident item when the consumer is ready; an enqueue admits an
offered item when the slot is empty. -/
def normalAbsStep {α : Type} (c : Option α) (i : QIn α) : Option α :=
  if i.reset then none
  else
    match c with
    | some v => if i.deq_rdy then none else some v
    | none => if i.enq_val then some i.enq_bits else none

/-- Abstract one-slot queue semantics of the bypass variant: as the normal
variant, except an item offered while the slot is empty and the consumer is
ready passes straight through and is never resident. -/
def bypassAbsStep {α : Type} (c : Option α) (i : QIn α) : Option α :=
  if i.reset then none
  else
    match c with
    | some v => if i.deq_rdy then none else some v
    | none => if i.enq_val && !i.deq_rdy then some i.enq_bits else none

/-- Abstract run of the normal one-slot queue. -/
def normalAbsRun {α : Type} (c : Option α) : List (QIn α) → Option α
  | [] => c
  | i :: is => normalAbsRun (normalAbsStep c i) is

/-- Abstract run of the bypass one-slot queue. -/
def bypassAbsRun {α : Type} (c : Option α) : List (QIn α) → Option α
  | [] => c
  | i :: is => bypassAbsRun (bypassAbsStep c i) is

theorem normalStep_absContents {α : Type} (s : QState α) (i : QIn α) :
    absContents (normalStep s i) = normalAbsStep (absContents s) i := by
  rcases s with ⟨full, reg⟩
  rcases i with ⟨reset, ev, dr, eb⟩
  cases reset <;> cases full <;> cases ev <;> cases dr <;>
    simp [normalStep, normalComb, normalSeq, regEnNext, absContents,
      normalAbsStep]

theorem bypassStep_absContents {α : Type} (s : QState α) (i : QIn α) :
    absContents (bypassStep s i) = bypassAbsStep (absContents s) i := by
  rcases s with ⟨full, reg⟩
  rcases i with ⟨reset, ev, dr, eb⟩
  cases reset <;> cases full <;> cases ev <;> cases dr <;>
    simp [bypassStep, bypassComb, bypassSeq, regEnNext, absContents,
      bypassAbsStep]

theorem normalRun_absContents {α : Type} (s : QState α) (is : List (QIn α)) :
    absContents (normalRun s is) = normalAbsRun (absContents s) is := by
  induction is generalizing s with
  | nil => rfl
  | cons i is ih =>
      simp only [normalRun, normalAbsRun, ih, normalStep_absContents]

theorem bypassRun_absContents {α : Type} (s : QState α) (is : List (QIn α)) :
    absContents (bypassRun s is) = bypassAbsRun (absContents s) is := by
  induction is generalizing s with
  | nil => rfl
  | cons i is ih =>
      simp only [bypassRun, bypassAbsRun, ih, bypassStep_absContents]

theorem absContents_length {α : Type} (s : QState α) :
    (absContents s).toList.length ≤ 1
    ∧ (s.full = true ↔ (absContents s).toList.length = 1) := by
  rcases s with ⟨full, reg⟩
  cases full <;> simp [absContents]

/-- Claim C1: bypass pass-through. For every width and every data value, if
the full bit is 0 and both `enq_val` and `deq_rdy` are asserted in the same
cycle, then `bypass_mux_sel` selects the live input, `deq_bits` equals
`enq_bits` combinationally in that cycle, and the full bit after the clock
edge is still 0. -/
theorem bypass_pass_through {α : Type} (enq_bits reg : α) :
    (bypassComb false true).bypass_mux_sel = true
    ∧ bypassDeqBits (bypassComb false true).bypass_mux_sel enq_bits reg
        = enq_bits
    ∧ (bypassStep ⟨false, reg⟩ ⟨false, true, true, enq_bits⟩).full = false := by
  refine ⟨rfl, ?_, ?_⟩ <;>
    simp [bypassDeqBits, bypassComb, mux2, bypassStep, bypassSeq]

/-- Claim C2: for every state of the full bit and every input, the bypass
control drives `deq_val` as exactly the boolean expression
`full || (not full && enq_val)`. -/
theorem bypass_deq_val_expr (full enq_val : Bool) :
    (bypassComb full enq_val).deq_val = (full || (!full && enq_val)) := rfl

/-- Claim C3: normal queue full-bit next-state function. For every pre-edge
state and inputs (non-reset): an enqueue transaction commits
(`enq_rdy && enq_val`) iff the queue is empty and `enq_val` is asserted, and
then the next full bit is 1; a dequeue transaction commits
(`deq_rdy && deq_val`) iff the queue is full and `deq_rdy` is asserted, and
then the next full bit is 0; in all other non-reset cases the full bit
holds. -/
theorem normal_full_next (full enq_val deq_rdy : Bool) :
    (((normalComb full enq_val).enq_rdy && enq_val) = true ↔
        (full = false ∧ enq_val = true))
    ∧ (((normalComb full enq_val).enq_rdy && enq_val) = true →
        normalSeq false full enq_val deq_rdy = true)
    ∧ ((deq_rdy && (normalComb full enq_val).deq_val) = true ↔
        (full = true ∧ deq_rdy = true))
    ∧ ((deq_rdy && (normalComb full enq_val).deq_val) = true →
        normalSeq false full enq_val deq_rdy = false)
    ∧ (((normalComb full enq_val).enq_rdy && enq_val) = false →
        (deq_rdy && (normalComb full enq_val).deq_val) = false →
        normalSeq false full enq_val deq_rdy = full) := by
  cases full <;> cases enq_val <;> cases deq_rdy <;> decide

/-- Claim C4: capacity invariant. For every input sequence starting from
reset (full bit 0, arbitrary retained register value), the reachable state
of either variant holds 0 or 1 items, the full bit exactly encodes occupancy
(full iff one item is resident), and the pair of full bit and storage
register, the only persisted state in the embedding, determines the resident
contents: the abstraction of the reached state equals an independent
one-slot abstract queue run over the same trace. -/
theorem queue_capacity_invariant {α : Type} (r0 : α) (inputs : List (QIn α)) :
    (absContents (normalRun ⟨false, r0⟩ inputs)).toList.length ≤ 1
    ∧ ((normalRun ⟨false, r0⟩ inputs).full = true ↔
        (absContents (normalRun ⟨false, r0⟩ inputs)).toList.length = 1)
    ∧ absContents (normalRun ⟨false, r0⟩ inputs) = normalAbsRun none inputs
    ∧ (absContents (bypassRun ⟨false, r0⟩ inputs)).toList.length ≤ 1
    ∧ ((bypassRun ⟨false, r0⟩ inputs).full = true ↔
        (absContents (bypassRun ⟨false, r0⟩ inputs)).toList.length = 1)
    ∧ absContents (bypassRun ⟨false, r0⟩ inputs) = bypassAbsRun none inputs := by
  have hn := absContents_length (normalRun ⟨false, r0⟩ inputs)
  have hb := absContents_length (bypassRun ⟨false, r0⟩ inputs)
  have hnr := normalRun_absContents (⟨false, r0⟩ : QState α) inputs
  have hbr := bypassRun_absContents (⟨false, r0⟩ : QState α) inputs
  have h0 : absContents (⟨false, r0⟩ : QState α) = none := by
    simp [absContents]
  rw [h0] at hnr hbr
  exact ⟨hn.1, hn.2, hnr, hb.1, hb.2, hbr⟩

/-- Claim C5: normal queue mutual exclusion. For every state of the full bit
and every combination of inputs, `deq_val` and `enq_rdy` are complementary,
so an enqueue-commit and a dequeue-commit are never both true in the same
cycle. -/
theorem normal_mutual_exclusion (full enq_val deq_rdy : Bool) :
    (normalComb full enq_val).deq_val = !(normalComb full enq_val).enq_rdy
    ∧ (((normalComb full enq_val).enq_rdy && enq_val) &&
        (deq_rdy && (normalComb full enq_val).deq_val)) = false := by
  cases full <;> cases enq_val <;> cases deq_rdy <;> decide

/-- Claim C6: bypass retention. For every width and data value, if the full
bit is 0, `enq_val` is asserted and `deq_rdy` is deasserted in a cycle, then
after the clock edge the full bit is 1 and the storage register holds
exactly the `enq_bits` value presented in that cycle. -/
theorem bypass_retention {α : Type} (enq_bits reg : α) :
    bypassStep ⟨false, reg⟩ ⟨false, true, false, enq_bits⟩
      = ⟨true, enq_bits⟩ := by
  simp [bypassStep, bypassComb, bypassSeq, regEnNext]

/-- Claim C7: reset dominance. For both queue variants, from every full-bit
state and every combination of `enq_val` and `deq_rdy`, asserting reset at a
clock edge forces the full bit after that edge to 0, regardless of any
pending or committing transaction. -/
theorem reset_dominance (full enq_val deq_rdy : Bool) :
    normalSeq true full enq_val deq_rdy = false
    ∧ bypassSeq true full enq_val deq_rdy = false := by
  cases full <;> cases enq_val <;> cases deq_rdy <;> decide

/-- Claim C8: normal queue combinational outputs. For every full-bit state
and every `enq_val`, the control drives `wen = not full && enq_val`,
`enq_rdy = not full` and `deq_val = full`; the combinational block takes no
`deq_rdy` argument at all, matching the source block which never reads it. -/
theorem normal_comb_outputs (full enq_val : Bool) :
    (normalComb full enq_val).wen = (!full && enq_val)
    ∧ (normalComb full enq_val).enq_rdy = !full
    ∧ (normalComb full enq_val).deq_val = full :=
  ⟨rfl, rfl, rfl⟩

/-- Claim C9: when the full bit is 1 the bypass queue looks like a full
normal queue at its boundary: `enq_rdy = 0`, `deq_val = 1`, `wen = 0`,
`bypass_mux_sel = 0` so `deq_bits` is driven by the storage register, and
each boundary output agrees with the normal variant in the same state. -/
theorem bypass_full_matches_normal {α : Type} (enq_val : Bool)
    (enq_bits reg : α) :
    (bypassComb true enq_val).enq_rdy = false
    ∧ (bypassComb true enq_val).deq_val = true
    ∧ (bypassComb true enq_val).wen = false
    ∧ (bypassComb true enq_val).bypass_mux_sel = false
    ∧ (bypassComb true enq_val).enq_rdy = (normalComb true enq_val).enq_rdy
    ∧ (bypassComb true enq_val).deq_val = (normalComb true enq_val).deq_val
    ∧ (bypassComb true enq_val).wen = (normalComb true enq_val).wen
    ∧ bypassDeqBits (bypassComb true enq_val).bypass_mux_sel enq_bits reg
        = normalDeqBits reg := by
  cases enq_val <;>
    simp [bypassComb, normalComb, bypassDeqBits, normalDeqBits, mux2]

/-- Claim C10: the bypass write enable does not depend on `deq_rdy`. When
the full bit is 0 and `enq_val` is asserted, the storage register captures
`enq_bits` at the edge for either value of `deq_rdy`; in particular during a
bypass pass-through (`deq_rdy = 1`) the full bit stays 0 while the register
nonetheless ends up holding the bypassed value. -/
theorem bypass_wen_independent_of_deq_rdy {α : Type} (deq_rdy : Bool)
    (enq_bits reg : α) :
    (bypassStep ⟨false, reg⟩ ⟨false, true, deq_rdy, enq_bits⟩).reg = enq_bits
    ∧ (bypassStep ⟨false, reg⟩ ⟨false, true, true, enq_bits⟩).full = false
    ∧ bypassDeqBits (bypassComb false true).bypass_mux_sel enq_bits reg
        = enq_bits := by
  cases deq_rdy <;>
    simp [bypassStep, bypassComb, bypassSeq, regEnNext, bypassDeqBits, mux2]

end PymtlQueues
